import Mathlib

/-!
# Verification of the Karmarkar-Karp k-way partitioning core (src/LDMGPU/ldm.cpp)

Shallow embedding of the anonymous-namespace core of `ldm.cpp`:
`Subset` (a list of numbers with a cached sum), `Partition` (a vector of
`k` subsets kept sorted by descending sum), and the heap-driven
`KarmarkarKarp` driver that repeatedly merges the two candidates with the
largest `difference()` until one candidate remains.

Machine integers (`std::uint64_t`) are modelled as `Nat`; the design
documents as a precondition that the total weight fits the integer width,
so no addition in any reachable state wraps, and the single subtraction
(`difference()`) never underflows because the subsets are kept sorted by
descending sum (proved below), making `Nat` subtraction agree with the
unsigned machine subtraction.  The `std::sort` call is modelled by the
deterministic `List.insertionSort` with the comparator's non-strict
counterpart; `std::sort`'s tie order among equal sums is unspecified, and
none of the proved properties depend on the tie-break.  The C++ heap
(`make_heap`/`pop_heap`/`push_heap`) is modelled by `extractMax`, a
deterministic extract-maximum-by-difference; the standard leaves the heap
tie order unspecified as well, and again no proved property depends on it.
The `assert` statements validating the arguments of `KarmarkarKarp` are
modelled by an `Except` result (`InvalidInput`), matching the design's
error taxonomy; the internal shape `assert` of `Partition::Merge` is the
invariant discharged separately.
-/

/-- `Subset` from `ldm.cpp`: an ordered list of numbers together with the
cached running sum maintained by the C++ class. -/
structure Subset where
  numbers : List Nat
  sum : Nat
deriving Repr, DecidableEq

/-- The default constructor `Subset()`: empty list, sum `0`. -/
def Subset.empty : Subset := ⟨[], 0⟩

/-- The constructor `Subset(number)`: singleton list, sum `number`. -/
def Subset.single (number : Nat) : Subset := ⟨[number], number⟩

/-- `Subset::Merge`: splice the other subset's numbers onto the end of
ours and add the sums. -/
def Subset.Merge (s other : Subset) : Subset :=
  ⟨s.numbers ++ other.numbers, s.sum + other.sum⟩

/-- The ordering induced by the comparator `SubsetSumGreater`
(strict `a.sum() > b.sum()` in the source) in its non-strict form, as a
sorting relation: sorting with it produces exactly the
descending-by-sum orders that `std::sort` with the strict comparator can
produce. -/
def subsetSumGE (a b : Subset) : Prop := b.sum ≤ a.sum

instance : DecidableRel subsetSumGE :=
  fun a b => inferInstanceAs (Decidable (b.sum ≤ a.sum))

instance : IsTotal Subset subsetSumGE :=
  ⟨fun a b => (Nat.le_total b.sum a.sum).imp id id⟩

instance : IsTrans Subset subsetSumGE :=
  ⟨fun _ _ _ h1 h2 => Nat.le_trans h2 h1⟩

/-- `Partition` from `ldm.cpp`: the vector of subsets. -/
structure Partition where
  subsets : List Subset
deriving Repr, DecidableEq

/-- The constructor `Partition(number, k)`: `k` default-constructed
subsets, then the front subset merges `Subset{number}`.  The C++ code
asserts `k > 0`; for `k = 0` the construction is never reached
(`KarmarkarKarp` rejects `k = 0` first). -/
def Partition.create (number : Nat) (k : Nat) : Partition :=
  ⟨Subset.empty.Merge (Subset.single number) :: List.replicate (k - 1) Subset.empty⟩

/-- `Partition::difference`: front sum minus back sum. -/
def Partition.difference (p : Partition) : Nat :=
  (p.subsets.headD Subset.empty).sum - (p.subsets.getLastD Subset.empty).sum

/-- `Partition::Merge`: walk our subsets forward and the other partition's
subsets backward, merging pairwise while both iterators are valid (any
leftover of our own subsets is untouched), then re-sort descending by sum.
The C++ `assert(subsets_.size() == other.subsets_.size())` is the shape
invariant discharged separately. -/
def Partition.Merge (p other : Partition) : Partition :=
  ⟨List.insertionSort subsetSumGE
    (List.zipWith Subset.Merge p.subsets other.subsets.reverse
      ++ p.subsets.drop (min p.subsets.length other.subsets.length))⟩

/-- One `pop_heap`: extract a candidate of maximal `difference()` from the
collection (the C++ heap's tie order is unspecified; this model keeps the
earliest maximal element) together with the remaining candidates. -/
def extractMax : List Partition → Option (Partition × List Partition)
  | [] => none
  | p :: rest =>
    match extractMax rest with
    | none => some (p, [])
    | some (q, rest') =>
      if p.difference < q.difference then some (q, p :: rest') else some (p, rest)

/-- One iteration of the `while (heap.size() > 1)` loop: extract `A` (the
largest difference), extract `B` (the largest of the rest), `B.Merge(A)`,
and reinsert the merged `B`.  A collection with fewer than two candidates
is left unchanged. -/
def kkStep (l : List Partition) : List Partition :=
  match extractMax l with
  | none => l
  | some (a, rest) =>
    match extractMax rest with
    | none => l
    | some (b, rest') => b.Merge a :: rest'

/-- The driver loop with explicit fuel (structural recursion): step while
more than one candidate remains. -/
def kkLoopFuel : Nat → List Partition → List Partition
  | 0, l => l
  | fuel + 1, l => if 1 < l.length then kkLoopFuel fuel (kkStep l) else l

/-- The `while (heap.size() > 1)` loop: each step removes exactly one
candidate, so `l.length` fuel always suffices. -/
def kkLoop (l : List Partition) : List Partition :=
  kkLoopFuel l.length l

/-- The error surfaced by the input-validating asserts of `KarmarkarKarp`. -/
inductive KKError where
  | InvalidInput
deriving Repr, DecidableEq

/-- `KarmarkarKarp(numbers, k)`: validate the inputs, build one singleton
candidate per number, and run the merge loop; the surviving candidate is
the answer. -/
def KarmarkarKarp (numbers : List Nat) (k : Nat) : Except KKError Partition :=
  if numbers.isEmpty then .error .InvalidInput
  else if k = 0 then .error .InvalidInput
  else .ok ((kkLoop (numbers.map (fun n => Partition.create n k))).headD ⟨[]⟩)

/-- The multiset of all weights held in a candidate's buckets. -/
def Partition.contents (p : Partition) : Multiset Nat :=
  (p.subsets.map (fun s => (s.numbers : Multiset Nat))).sum

/-- The multiset of all weights held anywhere in a collection of
candidates. -/
def heapContents (l : List Partition) : Multiset Nat :=
  (l.map Partition.contents).sum

/-- The sorting relation as a plain predicate on bucket lists: sorted by
descending sum. -/
def sortedDesc (l : List Subset) : Prop := List.Pairwise subsetSumGE l

instance : DecidablePred sortedDesc := fun l =>
  inferInstanceAs (Decidable (List.Pairwise subsetSumGE l))

/-- The `Bucket` cached-sum invariant of the design: the cached sum equals
the sum of the contained numbers. -/
def Subset.sumOk (s : Subset) : Prop := s.sum = s.numbers.sum

instance : DecidablePred Subset.sumOk := fun s =>
  inferInstanceAs (Decidable (s.sum = s.numbers.sum))

/-- The candidate invariant: `k` buckets, sorted descending by sum, every
cached sum correct. -/
def candOk (k : Nat) (p : Partition) : Prop :=
  p.subsets.length = k ∧ sortedDesc p.subsets ∧ ∀ s ∈ p.subsets, s.sumOk

/-- Every bucket of the candidate holds at most one weight, and a held
weight is positive: the shape of candidates while fewer weights than
buckets have been merged together (used for the implicit claim about
`N ≤ k` inputs). -/
def singletonForm (p : Partition) : Prop :=
  ∀ s ∈ p.subsets, s = Subset.empty ∨ ∃ w, 0 < w ∧ s = Subset.single w

/-! ## Basic lemmas about `extractMax` -/

theorem extractMax_none {l : List Partition} : extractMax l = none ↔ l = [] := by
  cases l with
  | nil => simp [extractMax]
  | cons p rest =>
    simp only [extractMax]
    cases h : extractMax rest with
    | none => simp
    | some pr => cases pr with | mk q rest' => by_cases hd : p.difference < q.difference <;> simp [hd]

theorem extractMax_perm {l : List Partition} {a : Partition} {rest : List Partition}
    (h : extractMax l = some (a, rest)) : l.Perm (a :: rest) := by
  induction l generalizing a rest with
  | nil => simp [extractMax] at h
  | cons p tl ih =>
    simp only [extractMax] at h
    cases htl : extractMax tl with
    | none =>
      rw [htl] at h
      have : tl = [] := extractMax_none.mp htl
      subst this
      simp at h
      rw [h.1, h.2]
    | some pr =>
      cases pr with
      | mk q rest' =>
        rw [htl] at h
        by_cases hd : p.difference < q.difference
        · simp [hd] at h
          obtain ⟨h1, h2⟩ := h
          subst h1; subst h2
          exact ((ih htl).cons p).trans (List.Perm.swap _ _ _)
        · simp [hd] at h
          obtain ⟨h1, h2⟩ := h
          subst h1; subst h2
          exact List.Perm.refl _

theorem extractMax_length {l : List Partition} {a : Partition} {rest : List Partition}
    (h : extractMax l = some (a, rest)) : rest.length + 1 = l.length := by
  have := (extractMax_perm h).length_eq
  simp at this
  omega

theorem extractMax_le {l : List Partition} {a : Partition} {rest : List Partition}
    (h : extractMax l = some (a, rest)) : ∀ x ∈ l, x.difference ≤ a.difference := by
  induction l generalizing a rest with
  | nil => simp [extractMax] at h
  | cons p tl ih =>
    simp only [extractMax] at h
    cases htl : extractMax tl with
    | none =>
      rw [htl] at h
      have : tl = [] := extractMax_none.mp htl
      subst this
      simp at h
      rw [h.1]
      simp
    | some pr =>
      cases pr with
      | mk q rest' =>
        rw [htl] at h
        by_cases hd : p.difference < q.difference
        · simp [hd] at h
          obtain ⟨h1, h2⟩ := h
          subst h1
          intro x hx
          rcases List.mem_cons.mp hx with hx | hx
          · subst hx; exact Nat.le_of_lt hd
          · exact ih htl x hx
        · simp [hd] at h
          obtain ⟨h1, h2⟩ := h
          subst h1
          intro x hx
          rcases List.mem_cons.mp hx with hx | hx
          · subst hx; exact Nat.le_refl _
          · exact Nat.le_trans (ih htl x hx) (Nat.le_of_not_lt hd)

theorem extractMax_mem {l : List Partition} {a : Partition} {rest : List Partition}
    (h : extractMax l = some (a, rest)) : a ∈ l :=
  (extractMax_perm h).symm.subset (List.mem_cons_self a rest)

theorem extractMax_rest_subset {l : List Partition} {a : Partition} {rest : List Partition}
    (h : extractMax l = some (a, rest)) : ∀ x ∈ rest, x ∈ l :=
  fun _ hx => (extractMax_perm h).symm.subset (List.mem_cons_of_mem a hx)

theorem kkStep_length {l : List Partition} (h : 1 < l.length) :
    (kkStep l).length + 1 = l.length := by
  unfold kkStep
  split
  · next h1 => rw [extractMax_none.mp h1] at h; simp at h
  · next a rest h1 =>
    split
    · next h2 =>
      have hr : rest = [] := extractMax_none.mp h2
      have e1 := extractMax_length h1
      rw [hr] at e1
      simp at e1
      omega
    · next b rest' h2 =>
      have e1 := extractMax_length h1
      have e2 := extractMax_length h2
      rw [List.length_cons]
      omega

/-- `kkStep` leaves a collection with fewer than two candidates unchanged. -/
theorem kkStep_small {l : List Partition} (h : l.length ≤ 1) : kkStep l = l := by
  match l, h with
  | [], _ => rfl
  | [p], _ => rfl

/-- Computation rule for `kkStep` in terms of the two extractions. -/
theorem kkStep_eq {l : List Partition} {a b : Partition} {rest rest' : List Partition}
    (h1 : extractMax l = some (a, rest)) (h2 : extractMax rest = some (b, rest')) :
    kkStep l = b.Merge a :: rest' := by
  unfold kkStep
  split
  · next hn => rw [hn] at h1; cases h1
  · next a2 rest2 hs =>
    rw [hs] at h1
    injection h1 with h1
    injection h1 with ha hr
    subst ha; subst hr
    split
    · next hn => rw [hn] at h2; cases h2
    · next b2 rest2' hs2 =>
      rw [hs2] at h2
      injection h2 with h2
      injection h2 with hb hr2
      subst hb; subst hr2
      rfl

/-- Anatomy of one loop iteration: the candidate `a` extracted first is a
maximal-difference element of the collection, `b` is a maximal-difference
element of the remainder, the new collection is `b.Merge a` plus the
untouched remainder, and nothing else is added or removed. -/
theorem kkStep_spec {l : List Partition} (h : 1 < l.length) :
    ∃ a b rest', l.Perm (a :: b :: rest') ∧ kkStep l = b.Merge a :: rest' ∧
      (∀ x ∈ l, x.difference ≤ a.difference) ∧
      (∀ x ∈ b :: rest', x.difference ≤ b.difference) := by
  cases h1 : extractMax l with
  | none => rw [extractMax_none.mp h1] at h; simp at h
  | some pr1 =>
    obtain ⟨a, rest⟩ := pr1
    cases h2 : extractMax rest with
    | none =>
      have hr : rest = [] := extractMax_none.mp h2
      have e1 := extractMax_length h1
      rw [hr] at e1
      simp at e1
      omega
    | some pr2 =>
      obtain ⟨b, rest'⟩ := pr2
      refine ⟨a, b, rest', ?_, ?_, ?_, ?_⟩
      · exact (extractMax_perm h1).trans ((extractMax_perm h2).cons a)
      · exact kkStep_eq h1 h2
      · exact extractMax_le h1
      · intro x hx
        exact extractMax_le h2 x ((extractMax_perm h2).symm.subset hx)

/-! ## Creation and merge facts -/

theorem create_subsets (number k : Nat) :
    (Partition.create number k).subsets =
      Subset.single number :: List.replicate (k - 1) Subset.empty := by
  simp [Partition.create, Subset.empty, Subset.single, Subset.Merge]

theorem create_length (number k : Nat) (hk : 1 ≤ k) :
    (Partition.create number k).subsets.length = k := by
  rw [create_subsets]
  simp
  omega

theorem Merge_length (p q : Partition) :
    (p.Merge q).subsets.length = p.subsets.length := by
  simp only [Partition.Merge, List.length_insertionSort, List.length_append,
    List.length_zipWith, List.length_drop, List.length_reverse]
  omega

theorem Merge_sorted (p q : Partition) : sortedDesc (p.Merge q).subsets :=
  List.sorted_insertionSort subsetSumGE _

theorem create_sorted (number k : Nat) : sortedDesc (Partition.create number k).subsets := by
  rw [create_subsets]
  constructor
  · intro b hb
    rw [List.eq_of_mem_replicate hb]
    simp [subsetSumGE, Subset.empty, Subset.single]
  · rw [List.pairwise_replicate]
    simp [subsetSumGE, Subset.empty]

/-- The weight multiset of a bucket produced by `Subset::Merge`. -/
theorem Merge_subset_numbers (a b : Subset) :
    ((a.Merge b).numbers : Multiset Nat) = ↑a.numbers + ↑b.numbers := by
  simp [Subset.Merge]

theorem create_contents (number k : Nat) :
    (Partition.create number k).contents = {number} := by
  rw [Partition.contents, create_subsets]
  simp [Subset.single]
  induction k - 1 with
  | zero => simp
  | succ n _ => simp [List.replicate_succ, Subset.empty]

/-- Helper: every element of a `zipWith` comes from a pair of elements of
the two lists. -/
theorem of_mem_zipWith {α β γ : Type} {f : α → β → γ} :
    ∀ {l1 : List α} {l2 : List β} {c : γ}, c ∈ List.zipWith f l1 l2 →
      ∃ x ∈ l1, ∃ y ∈ l2, c = f x y := by
  intro l1
  induction l1 with
  | nil => intro l2 c h; simp at h
  | cons x tl ih =>
    intro l2 c h
    cases l2 with
    | nil => simp at h
    | cons y tl2 =>
      rcases List.mem_cons.mp h with h | h
      · exact ⟨x, List.mem_cons_self _ _, y, List.mem_cons_self _ _, h⟩
      · obtain ⟨x', hx', y', hy', hc⟩ := ih h
        exact ⟨x', List.mem_cons_of_mem _ hx', y', List.mem_cons_of_mem _ hy', hc⟩

/-- Every bucket of a merged candidate is either the merge of a bucket of
each operand, or an untouched bucket of the left operand. -/
theorem mem_Merge_subsets {s : Subset} {p q : Partition}
    (hs : s ∈ (p.Merge q).subsets) :
    (∃ x ∈ p.subsets, ∃ y ∈ q.subsets, s = x.Merge y) ∨ s ∈ p.subsets := by
  rw [Partition.Merge] at hs
  simp only [List.mem_insertionSort, List.mem_append] at hs
  rcases hs with hs | hs
  · obtain ⟨x, hx, y, hy, hc⟩ := of_mem_zipWith hs
    exact Or.inl ⟨x, hx, y, List.mem_reverse.mp hy, hc⟩
  · exact Or.inr (List.mem_of_mem_drop hs)

/-- The weight multiset of a zip-merged list of buckets. -/
theorem zipWith_merge_contents :
    ∀ (l1 l2 : List Subset), l1.length = l2.length →
      ((List.zipWith Subset.Merge l1 l2).map (fun s => (s.numbers : Multiset Nat))).sum
        = (l1.map (fun s => (s.numbers : Multiset Nat))).sum
          + (l2.map (fun s => (s.numbers : Multiset Nat))).sum := by
  intro l1
  induction l1 with
  | nil =>
    intro l2 h
    cases l2 with
    | nil => simp
    | cons y tl2 => simp at h
  | cons x tl ih =>
    intro l2 h
    cases l2 with
    | nil => simp at h
    | cons y tl2 =>
      simp only [List.length_cons, Nat.add_right_cancel_iff] at h
      simp only [List.zipWith_cons_cons, List.map_cons, List.sum_cons, ih tl2 h,
        Merge_subset_numbers]
      abel

/-- Conservation through one candidate merge: when the shapes agree, the
merged candidate holds exactly the weights of the two operands. -/
theorem Merge_contents (p q : Partition) (h : q.subsets.length = p.subsets.length) :
    (p.Merge q).contents = p.contents + q.contents := by
  rw [Partition.contents, Partition.Merge]
  have hperm := List.perm_insertionSort subsetSumGE
    (List.zipWith Subset.Merge p.subsets q.subsets.reverse
      ++ p.subsets.drop (min p.subsets.length q.subsets.length))
  rw [((hperm.map (fun s => (s.numbers : Multiset Nat)))).sum_eq]
  have hmin : min p.subsets.length q.subsets.length = p.subsets.length := by omega
  rw [hmin, List.drop_length, List.append_nil]
  rw [zipWith_merge_contents p.subsets q.subsets.reverse (by simp [h])]
  rw [((q.subsets.reverse_perm).map (fun s => (s.numbers : Multiset Nat))).sum_eq]
  rfl

/-! ## Loop machinery -/

/-- Every candidate of the collection after one step is a merge of two
former candidates or a former candidate itself. -/
theorem kkStep_mem {l : List Partition} {x : Partition} (hx : x ∈ kkStep l) :
    (∃ a ∈ l, ∃ b ∈ l, x = b.Merge a) ∨ x ∈ l := by
  by_cases h : 1 < l.length
  · obtain ⟨a, b, rest', hperm, hstep, _, _⟩ := kkStep_spec h
    rw [hstep] at hx
    rcases List.mem_cons.mp hx with hx | hx
    · exact Or.inl ⟨a, hperm.symm.subset (List.mem_cons_self _ _), b,
        hperm.symm.subset (List.mem_cons_of_mem _ (List.mem_cons_self _ _)), hx⟩
    · exact Or.inr (hperm.symm.subset
        (List.mem_cons_of_mem _ (List.mem_cons_of_mem _ hx)))
  · rw [kkStep_small (by omega)] at hx
    exact Or.inr hx

/-- A predicate preserved by every step is preserved by the fueled loop. -/
theorem kkLoopFuel_pres {P : List Partition → Prop}
    (hstep : ∀ l, 1 < l.length → P l → P (kkStep l)) :
    ∀ fuel l, P l → P (kkLoopFuel fuel l) := by
  intro fuel
  induction fuel with
  | zero => intro l h; exact h
  | succ n ih =>
    intro l h
    rw [kkLoopFuel]
    by_cases hl : 1 < l.length
    · rw [if_pos hl]; exact ih _ (hstep l hl h)
    · rw [if_neg hl]; exact h

/-- A predicate preserved by every step is preserved by the loop. -/
theorem kkLoop_pres {P : List Partition → Prop}
    (hstep : ∀ l, 1 < l.length → P l → P (kkStep l)) {l : List Partition} :
    P l → P (kkLoop l) :=
  kkLoopFuel_pres hstep l.length l

/-- With enough fuel, the fueled loop is an iteration of `kkStep`. -/
theorem kkLoopFuel_iterate :
    ∀ (fuel : Nat) (l : List Partition), l.length ≤ fuel + 1 →
      kkLoopFuel fuel l = kkStep^[l.length - 1] l := by
  intro fuel
  induction fuel with
  | zero =>
    intro l h
    have : l.length - 1 = 0 := by omega
    rw [this]
    rfl
  | succ n ih =>
    intro l h
    rw [kkLoopFuel]
    by_cases hl : 1 < l.length
    · rw [if_pos hl]
      have hlen := kkStep_length hl
      rw [ih (kkStep l) (by omega)]
      have h2 : l.length - 1 = ((kkStep l).length - 1) + 1 := by omega
      rw [h2, Function.iterate_succ_apply]
    · rw [if_neg hl]
      have : l.length - 1 = 0 := by omega
      rw [this]
      rfl

/-- The driver loop performs exactly `length − 1` merge steps. -/
theorem kkLoop_iterate (l : List Partition) :
    kkLoop l = kkStep^[l.length - 1] l :=
  kkLoopFuel_iterate l.length l (by omega)

/-- The loop ends with exactly one surviving candidate. -/
theorem kkLoop_length {l : List Partition} (h : 1 ≤ l.length) :
    (kkLoop l).length = 1 := by
  suffices H : ∀ (fuel : Nat) (l : List Partition), 1 ≤ l.length →
      l.length ≤ fuel + 1 → (kkLoopFuel fuel l).length = 1 by
    exact H l.length l h (by omega)
  intro fuel
  induction fuel with
  | zero =>
    intro l h1 h2
    have : (kkLoopFuel 0 l) = l := rfl
    rw [this]
    omega
  | succ n ih =>
    intro l h1 h2
    rw [kkLoopFuel]
    by_cases hl : 1 < l.length
    · rw [if_pos hl]
      have hlen := kkStep_length hl
      exact ih (kkStep l) (by omega) (by omega)
    · rw [if_neg hl]
      omega

/-! ## The combined candidate invariant -/

theorem create_candOk (number k : Nat) (hk : 1 ≤ k) :
    candOk k (Partition.create number k) := by
  refine ⟨create_length number k hk, create_sorted number k, ?_⟩
  intro s hs
  rw [create_subsets] at hs
  rcases List.mem_cons.mp hs with hs | hs
  · rw [hs]; simp [Subset.sumOk, Subset.single]
  · rw [List.eq_of_mem_replicate hs]; simp [Subset.sumOk, Subset.empty]

theorem Merge_sumOk {p q : Partition}
    (hp : ∀ s ∈ p.subsets, s.sumOk) (hq : ∀ s ∈ q.subsets, s.sumOk) :
    ∀ s ∈ (p.Merge q).subsets, s.sumOk := by
  intro s hs
  rcases mem_Merge_subsets hs with ⟨x, hx, y, hy, hc⟩ | hs
  · rw [hc]
    have := hp x hx
    have := hq y hy
    simp_all [Subset.sumOk, Subset.Merge]
  · exact hp s hs

theorem Merge_candOk {k : Nat} {p q : Partition} (hp : candOk k p) (hq : candOk k q) :
    candOk k (p.Merge q) :=
  ⟨(Merge_length p q).trans hp.1, Merge_sorted p q, Merge_sumOk hp.2.2 hq.2.2⟩

/-- `heapContents` only depends on the collection up to permutation. -/
theorem heapContents_perm {l1 l2 : List Partition} (h : l1.Perm l2) :
    heapContents l1 = heapContents l2 :=
  (h.map Partition.contents).sum_eq

/-- One step neither loses nor duplicates weights, and keeps every
candidate well-formed. -/
theorem kkStep_inv {k : Nat} {M : Multiset Nat} {l : List Partition}
    (hl : 1 < l.length)
    (h : (∀ p ∈ l, candOk k p) ∧ heapContents l = M) :
    (∀ p ∈ kkStep l, candOk k p) ∧ heapContents (kkStep l) = M := by
  obtain ⟨hall, hM⟩ := h
  obtain ⟨a, b, rest', hperm, hstep, _, _⟩ := kkStep_spec hl
  have ha : candOk k a := hall a (hperm.symm.subset (List.mem_cons_self _ _))
  have hb : candOk k b :=
    hall b (hperm.symm.subset (List.mem_cons_of_mem _ (List.mem_cons_self _ _)))
  constructor
  · intro p hp
    rw [hstep] at hp
    rcases List.mem_cons.mp hp with hp | hp
    · rw [hp]; exact Merge_candOk hb ha
    · exact hall p (hperm.symm.subset
        (List.mem_cons_of_mem _ (List.mem_cons_of_mem _ hp)))
  · rw [hstep]
    have : heapContents (b.Merge a :: rest') = heapContents (a :: b :: rest') := by
      simp only [heapContents, List.map_cons, List.sum_cons]
      rw [Merge_contents b a (ha.1.trans hb.1.symm)]
      abel
    rw [this, ← heapContents_perm hperm, hM]

/-! ## The result of the driver -/

/-- The initial heap holds exactly the input weights. -/
theorem heapContents_init (numbers : List Nat) (k : Nat) :
    heapContents (numbers.map (fun n => Partition.create n k)) = ↑numbers := by
  induction numbers with
  | nil => simp [heapContents]
  | cons n tl ih =>
    simp only [List.map_cons, heapContents, List.sum_cons] at ih ⊢
    rw [create_contents, ih]
    simp

/-- Master lemma: on valid inputs the returned candidate satisfies the
candidate invariant and holds exactly the input weights. -/
theorem KarmarkarKarp_result {numbers : List Nat} {k : Nat} {p : Partition}
    (h1 : numbers ≠ []) (h2 : 1 ≤ k)
    (hp : KarmarkarKarp numbers k = .ok p) :
    candOk k p ∧ p.contents = ↑numbers := by
  have hne : ¬ (numbers.isEmpty = true) := by
    simp only [List.isEmpty_iff]
    exact h1
  have hk0 : ¬ (k = 0) := by omega
  rw [KarmarkarKarp, if_neg hne, if_neg hk0] at hp
  injection hp with hp
  have hlen : 1 ≤ (numbers.map (fun n => Partition.create n k)).length := by
    simp only [List.length_map]
    cases numbers with
    | nil => exact absurd rfl h1
    | cons a tl => simp
  have hinv :
      (∀ q ∈ kkLoop (numbers.map (fun n => Partition.create n k)), candOk k q) ∧
        heapContents (kkLoop (numbers.map (fun n => Partition.create n k))) = ↑numbers := by
    refine kkLoop_pres (fun l hl h => kkStep_inv hl h) ⟨?_, heapContents_init numbers k⟩
    intro q hq
    obtain ⟨n, _, hn⟩ := List.mem_map.mp hq
    rw [← hn]
    exact create_candOk n k h2
  obtain ⟨p₀, hp₀⟩ := List.length_eq_one.mp (kkLoop_length hlen)
  rw [hp₀] at hinv
  rw [hp₀] at hp
  simp only [List.headD_cons] at hp
  subst hp
  refine ⟨hinv.1 p₀ (List.mem_cons_self _ _), ?_⟩
  have := hinv.2
  simpa [heapContents] using this

/-! ## Singleton-form candidates (inputs with at most `k` weights) -/

theorem Merge_single_empty (w : Nat) :
    (Subset.single w).Merge Subset.empty = Subset.single w := by
  simp [Subset.single, Subset.empty, Subset.Merge]

theorem Merge_empty_single (w : Nat) :
    Subset.empty.Merge (Subset.single w) = Subset.single w := by
  simp [Subset.single, Subset.empty, Subset.Merge]

theorem Merge_empty_empty : Subset.empty.Merge Subset.empty = Subset.empty := by
  simp [Subset.empty, Subset.Merge]

/-- A sorted bucket list whose buckets are all empty or positive
singletons is some positive singletons followed by empties. -/
theorem form_sorted_decomp :
    ∀ (l : List Subset),
      (∀ s ∈ l, s = Subset.empty ∨ ∃ w, 0 < w ∧ s = Subset.single w) →
      List.Pairwise subsetSumGE l →
      ∃ ws : List Nat, (∀ w ∈ ws, 0 < w) ∧ ws.length ≤ l.length ∧
        l = ws.map Subset.single ++ List.replicate (l.length - ws.length) Subset.empty := by
  intro l
  induction l with
  | nil => intro _ _; exact ⟨[], by simp, by simp, by simp⟩
  | cons s tl ih =>
    intro hform hsort
    rcases hform s (List.mem_cons_self _ _) with hs | ⟨w, hw, hs⟩
    · refine ⟨[], by simp, by simp, ?_⟩
      have hall : ∀ t ∈ s :: tl, t = Subset.empty := by
        intro t ht
        rcases List.mem_cons.mp ht with ht | ht
        · rw [ht, hs]
        · have hle : subsetSumGE s t := (List.pairwise_cons.mp hsort).1 t ht
          rcases hform t (List.mem_cons_of_mem _ ht) with h | ⟨w, hw, h⟩
          · exact h
          · rw [hs] at hle
            rw [h] at hle
            simp [subsetSumGE, Subset.empty, Subset.single] at hle
            omega
      have := List.eq_replicate_of_mem hall
      simpa using this
    · obtain ⟨ws, hpos, hlen, hdecomp⟩ :=
        ih (fun t ht => hform t (List.mem_cons_of_mem _ ht)) (List.pairwise_cons.mp hsort).2
      refine ⟨w :: ws, ?_, by simp; omega, ?_⟩
      · intro v hv
        rcases List.mem_cons.mp hv with hv | hv
        · omega
        · exact hpos v hv
      · simp only [List.map_cons, List.cons_append, List.length_cons]
        rw [← hs]
        have : tl.length + 1 - (ws.length + 1) = tl.length - ws.length := by omega
        rw [this, ← hdecomp]

/-- Empty buckets contribute no weights. -/
theorem replicate_empty_contents (m : Nat) :
    ((List.replicate m Subset.empty).map (fun s => (s.numbers : Multiset Nat))).sum = 0 := by
  induction m with
  | zero => rfl
  | succ n ih =>
    rw [List.replicate_succ, List.map_cons, List.sum_cons, ih]
    simp [Subset.empty]

/-- Singleton buckets contribute exactly their weights. -/
theorem singles_contents (ws : List Nat) :
    ((ws.map Subset.single).map (fun s => (s.numbers : Multiset Nat))).sum = ↑ws := by
  induction ws with
  | nil => rfl
  | cons v tl ih =>
    rw [List.map_cons, List.map_cons, List.sum_cons, ih]
    simp [Subset.single]

/-- The weight multiset of a singletons-then-empties bucket list. -/
theorem decomp_contents (ws : List Nat) (m : Nat) :
    (((ws.map Subset.single ++ List.replicate m Subset.empty).map
      (fun s => (s.numbers : Multiset Nat))).sum) = ↑ws := by
  rw [List.map_append, List.sum_append, replicate_empty_contents, singles_contents]
  simp

/-- Merging two singleton-form candidates whose total weight count fits
into `k` buckets yields a singleton-form candidate: the
largest-with-smallest pairing matches every occupied bucket with an empty
one. -/
theorem Merge_singletonForm {k : Nat} {p q : Partition}
    (hp : candOk k p) (hq : candOk k q)
    (hfp : singletonForm p) (hfq : singletonForm q)
    (hcard : p.contents.card + q.contents.card ≤ k) :
    singletonForm (p.Merge q) := by
  obtain ⟨hplen, hpsort, _⟩ := hp
  obtain ⟨hqlen, hqsort, _⟩ := hq
  obtain ⟨ws1, hpos1, hlen1, hdec1⟩ := form_sorted_decomp p.subsets hfp hpsort
  obtain ⟨ws2, hpos2, hlen2, hdec2⟩ := form_sorted_decomp q.subsets hfq hqsort
  have hcard1 : p.contents.card = ws1.length := by
    rw [Partition.contents, hdec1, decomp_contents]; simp
  have hcard2 : q.contents.card = ws2.length := by
    rw [Partition.contents, hdec2, decomp_contents]; simp
  rw [hcard1, hcard2] at hcard
  rw [hplen] at hdec1 hlen1
  rw [hqlen] at hdec2 hlen2
  intro s hs
  rw [Partition.Merge] at hs
  simp only [List.mem_insertionSort, List.mem_append] at hs
  have hdrop : p.subsets.drop (min p.subsets.length q.subsets.length) = [] := by
    have : min p.subsets.length q.subsets.length = p.subsets.length := by omega
    rw [this, List.drop_length]
  rw [hdrop] at hs
  rcases hs with hs | hs
  case inr => simp at hs
  have hrev : q.subsets.reverse =
      List.replicate ws1.length Subset.empty
        ++ (List.replicate ((k - ws2.length) - ws1.length) Subset.empty
          ++ (ws2.map Subset.single).reverse) := by
    rw [hdec2, List.reverse_append, List.reverse_replicate]
    have harith : k - ws2.length = ws1.length + ((k - ws2.length) - ws1.length) := by omega
    nth_rewrite 1 [harith]
    rw [List.replicate_add, List.append_assoc]
  rw [hdec1, hrev] at hs
  rw [List.zipWith_append Subset.Merge
      (ws1.map Subset.single) (List.replicate (k - ws1.length) Subset.empty)
      (List.replicate ws1.length Subset.empty)
      (List.replicate ((k - ws2.length) - ws1.length) Subset.empty
        ++ (ws2.map Subset.single).reverse)
      (by simp)] at hs
  rcases List.mem_append.mp hs with hs | hs
  · obtain ⟨x, hx, y, hy, hxy⟩ := of_mem_zipWith hs
    obtain ⟨w, hw, hxw⟩ := List.mem_map.mp hx
    have hy2 : y = Subset.empty := List.eq_of_mem_replicate hy
    right
    refine ⟨w, hpos1 w hw, ?_⟩
    rw [hxy, ← hxw, hy2, Merge_single_empty]
  · obtain ⟨x, hx, y, hy, hxy⟩ := of_mem_zipWith hs
    have hx2 : x = Subset.empty := List.eq_of_mem_replicate hx
    rcases List.mem_append.mp hy with hy | hy
    · left
      rw [hxy, hx2, List.eq_of_mem_replicate hy, Merge_empty_empty]
    · obtain ⟨w, hw, hyw⟩ := List.mem_map.mp (List.mem_reverse.mp hy)
      right
      exact ⟨w, hpos2 w hw, by rw [hxy, hx2, ← hyw, Merge_empty_single]⟩

/-- A fresh singleton candidate with a positive weight is in singleton
form. -/
theorem create_singletonForm {number : Nat} (hpos : 0 < number) (k : Nat) :
    singletonForm (Partition.create number k) := by
  intro s hs
  rw [create_subsets] at hs
  rcases List.mem_cons.mp hs with hs | hs
  · exact Or.inr ⟨number, hpos, hs⟩
  · exact Or.inl (List.eq_of_mem_replicate hs)

/-- One step preserves well-formedness, singleton form, and the weight
multiset, provided the total number of weights fits into `k` buckets. -/
theorem kkStep_form_inv {k : Nat} {M : Multiset Nat} {l : List Partition}
    (hl : 1 < l.length) (hM : M.card ≤ k)
    (h : (∀ p ∈ l, candOk k p ∧ singletonForm p) ∧ heapContents l = M) :
    (∀ p ∈ kkStep l, candOk k p ∧ singletonForm p) ∧ heapContents (kkStep l) = M := by
  obtain ⟨hall, hMC⟩ := h
  obtain ⟨a, b, rest', hperm, hstep, _, _⟩ := kkStep_spec hl
  have ha := hall a (hperm.symm.subset (List.mem_cons_self _ _))
  have hb := hall b (hperm.symm.subset (List.mem_cons_of_mem _ (List.mem_cons_self _ _)))
  have hContents : heapContents l = a.contents + b.contents + heapContents rest' := by
    rw [heapContents_perm hperm]
    simp only [heapContents, List.map_cons, List.sum_cons]
    abel
  have hcardab : a.contents.card + b.contents.card ≤ k := by
    have : (a.contents + b.contents + heapContents rest').card = M.card := by
      rw [← hContents, hMC]
    simp only [Multiset.card_add] at this
    omega
  constructor
  · intro p hp
    rw [hstep] at hp
    rcases List.mem_cons.mp hp with hp | hp
    · rw [hp]
      exact ⟨Merge_candOk hb.1 ha.1,
        Merge_singletonForm hb.1 ha.1 hb.2 ha.2 (by omega)⟩
    · exact hall p (hperm.symm.subset
        (List.mem_cons_of_mem _ (List.mem_cons_of_mem _ hp)))
  · rw [hstep]
    have : heapContents (b.Merge a :: rest') = heapContents (a :: b :: rest') := by
      simp only [heapContents, List.map_cons, List.sum_cons]
      rw [Merge_contents b a (ha.1.1.trans hb.1.1.symm)]
      abel
    rw [this, ← heapContents_perm hperm, hMC]

/-- Master lemma for inputs with at most `k` positive weights: the result
is in singleton form. -/
theorem KarmarkarKarp_result_form {numbers : List Nat} {k : Nat} {p : Partition}
    (h1 : numbers ≠ []) (hpos : ∀ w ∈ numbers, 0 < w)
    (hN : numbers.length ≤ k)
    (hp : KarmarkarKarp numbers k = .ok p) :
    singletonForm p ∧ candOk k p ∧ p.contents = ↑numbers := by
  have h2 : 1 ≤ k := by
    cases numbers with
    | nil => exact absurd rfl h1
    | cons a tl => simp at hN; omega
  have hne : ¬ (numbers.isEmpty = true) := by
    simp only [List.isEmpty_iff]
    exact h1
  have hk0 : ¬ (k = 0) := by omega
  rw [KarmarkarKarp, if_neg hne, if_neg hk0] at hp
  injection hp with hp
  have hlen : 1 ≤ (numbers.map (fun n => Partition.create n k)).length := by
    simp only [List.length_map]
    cases numbers with
    | nil => exact absurd rfl h1
    | cons a tl => simp
  have hMcard : (↑numbers : Multiset Nat).card ≤ k := by
    simpa using hN
  have hinv :
      (∀ q ∈ kkLoop (numbers.map (fun n => Partition.create n k)),
        candOk k q ∧ singletonForm q) ∧
        heapContents (kkLoop (numbers.map (fun n => Partition.create n k))) = ↑numbers := by
    refine kkLoop_pres (fun l hl h => kkStep_form_inv hl hMcard h)
      ⟨?_, heapContents_init numbers k⟩
    intro q hq
    obtain ⟨n, hn, hnq⟩ := List.mem_map.mp hq
    rw [← hnq]
    exact ⟨create_candOk n k h2, create_singletonForm (hpos n hn) k⟩
  obtain ⟨p₀, hp₀⟩ := List.length_eq_one.mp (kkLoop_length hlen)
  rw [hp₀] at hinv
  rw [hp₀] at hp
  simp only [List.headD_cons] at hp
  subst hp
  have hmem := hinv.1 p₀ (List.mem_cons_self _ _)
  refine ⟨hmem.2, hmem.1, ?_⟩
  simpa [heapContents] using hinv.2

/-! ## Spread (`difference`) facts -/

theorem headD_mem {α : Type} (l : List α) (d : α) (h : l ≠ []) : l.headD d ∈ l := by
  cases l with
  | nil => exact absurd rfl h
  | cons x tl => simp

theorem getLastD_mem {α : Type} : ∀ (l : List α) (d : α), l ≠ [] → l.getLastD d ∈ l := by
  intro l
  induction l with
  | nil => intro d h; exact absurd rfl h
  | cons x tl ih =>
    intro d h
    rw [List.getLastD_cons]
    cases tl with
    | nil => simp [List.getLastD]
    | cons y tl2 => exact List.mem_cons_of_mem x (ih x (by simp))

/-- If every bucket has the same sum, the spread is zero. -/
theorem difference_zero_of_const {p : Partition} {c : Nat}
    (h : ∀ s ∈ p.subsets, s.sum = c) : p.difference = 0 := by
  rw [Partition.difference]
  by_cases hnil : p.subsets = []
  · rw [hnil]
    rfl
  · rw [h _ (headD_mem _ _ hnil), h _ (getLastD_mem _ _ hnil)]
    omega

/-- A one-bucket candidate has zero spread. -/
theorem difference_zero_of_one {p : Partition} (h : p.subsets.length = 1) :
    p.difference = 0 := by
  obtain ⟨s, hs⟩ := List.length_eq_one.mp h
  rw [Partition.difference, hs]
  simp [List.getLastD]

/-- The weights of one bucket are among the candidate's weights. -/
theorem bucket_numbers_le_contents {p : Partition} {s : Subset} (hs : s ∈ p.subsets) :
    (↑s.numbers : Multiset Nat) ≤ p.contents :=
  List.le_sum_of_mem (List.mem_map_of_mem (fun t => (↑t.numbers : Multiset Nat)) hs)

theorem list_sum_zero {l : List Nat} (h : ∀ n ∈ l, n = 0) : l.sum = 0 := by
  induction l with
  | nil => rfl
  | cons n tl ih =>
    rw [List.sum_cons, h n (List.mem_cons_self _ _),
      ih (fun m hm => h m (List.mem_cons_of_mem _ hm))]

/-- On an input of `k` equal weights the result has zero spread: every
bucket ends up with sum exactly `w`. -/
theorem KK_replicate_diff_zero {k w : Nat} (hk : 1 ≤ k) {p : Partition}
    (hp : KarmarkarKarp (List.replicate k w) k = .ok p) : p.difference = 0 := by
  have hnil : List.replicate k w ≠ [] := by
    cases k with
    | zero => omega
    | succ n => simp [List.replicate_succ]
  by_cases hw : 0 < w
  · obtain ⟨hform, hok, hcont⟩ := KarmarkarKarp_result_form hnil
      (fun v hv => by rw [List.eq_of_mem_replicate hv]; exact hw)
      (by simp) hp
    obtain ⟨hlen, hsort, _⟩ := hok
    obtain ⟨ws, hpos, hlenws, hdec⟩ := form_sorted_decomp p.subsets hform hsort
    have hws : (↑ws : Multiset Nat) = Multiset.replicate k w := by
      have : p.contents = ↑ws := by
        rw [Partition.contents, hdec, decomp_contents]
      rw [← this, hcont, Multiset.coe_replicate]
    have hwslen : ws.length = k := by
      have := congrArg Multiset.card hws
      simpa using this
    apply difference_zero_of_const (c := w)
    intro s hs
    rw [hdec, hlen, hwslen, Nat.sub_self, List.replicate_zero, List.append_nil] at hs
    obtain ⟨v, hv, hvs⟩ := List.mem_map.mp hs
    have hvmem : v ∈ (↑ws : Multiset Nat) := by simpa using hv
    rw [hws] at hvmem
    rw [← hvs, Multiset.eq_of_mem_replicate hvmem]
    rfl
  · have hw0 : w = 0 := by omega
    subst hw0
    obtain ⟨hok, hcont⟩ := KarmarkarKarp_result hnil hk hp
    apply difference_zero_of_const (c := 0)
    intro s hs
    have hsum := hok.2.2 s hs
    have hle := bucket_numbers_le_contents hs
    rw [hcont, Multiset.coe_replicate] at hle
    have hzero : ∀ n ∈ s.numbers, n = 0 := by
      intro n hn
      exact Multiset.eq_of_mem_replicate (Multiset.mem_of_le hle (by simpa using hn))
    rw [Subset.sumOk] at hsum
    rw [hsum]
    exact list_sum_zero hzero

/-! ## Pairing shape of the candidate merge, and iterated shape safety -/

/-- The multiset of merged buckets pairs index `i` of `self` with index
`k - 1 - i` of `other`: with both operands sorted descending, the heaviest
bucket absorbs the other's lightest, and so on. -/
theorem Merge_subsets_perm_pairs {p q : Partition} {k : Nat}
    (hp : p.subsets.length = k) (hq : q.subsets.length = k) :
    (p.Merge q).subsets.Perm
      (List.ofFn (fun i : Fin k =>
        Subset.Merge (p.subsets.get (Fin.cast hp.symm i))
          (q.subsets.get ⟨k - 1 - i.1, by have := i.2; omega⟩))) := by
  rw [Partition.Merge]
  have hdrop : p.subsets.drop (min p.subsets.length q.subsets.length) = [] := by
    have : min p.subsets.length q.subsets.length = p.subsets.length := by omega
    rw [this, List.drop_length]
  refine ((List.perm_insertionSort subsetSumGE _).trans ?_)
  rw [hdrop, List.append_nil]
  apply List.Perm.of_eq
  apply List.ext_getElem
  · simp [hp, hq]
  · intro n h1 h2
    simp only [List.getElem_zipWith, List.getElem_reverse, List.getElem_ofFn,
      List.get_eq_getElem]
    congr 2
    simp [hq]

theorem kkStep_candOk {k : Nat} {l : List Partition} (h : ∀ p ∈ l, candOk k p) :
    ∀ p ∈ kkStep l, candOk k p := by
  intro p hp
  rcases kkStep_mem hp with ⟨a, ha, b, hb, hab⟩ | hp
  · rw [hab]
    exact Merge_candOk (h b hb) (h a ha)
  · exact h p hp

theorem iterate_candOk {k : Nat} {l : List Partition} (h : ∀ p ∈ l, candOk k p) :
    ∀ (m : Nat), ∀ p ∈ kkStep^[m] l, candOk k p := by
  intro m
  induction m with
  | zero => exact h
  | succ n ih =>
    rw [Function.iterate_succ_apply']
    exact kkStep_candOk ih

/-! ## The claims -/

/-- C1: for every non-empty weight sequence and every `k ≥ 1`, the result
of `KarmarkarKarp` is a partition of the input: the multiset union of the
contents of all `k` buckets equals the multiset of input weights exactly,
with no weight lost and none duplicated. -/
theorem C1_conservation (numbers : List Nat) (k : Nat)
    (h1 : numbers ≠ []) (h2 : 1 ≤ k) (p : Partition)
    (hp : KarmarkarKarp numbers k = .ok p) :
    p.contents = ↑numbers :=
  (KarmarkarKarp_result h1 h2 hp).2

/-- C1 witness: the conservation law evaluated on `[1,2,4]` with `k = 2`. -/
theorem C1_conservation_witness :
    Partition.contents ⟨[⟨[4], 4⟩, ⟨[1, 2], 3⟩]⟩ = (↑[1, 2, 4] : Multiset Nat) :=
  C1_conservation [1, 2, 4] 2 (by decide) (by decide) _ rfl

/-- C2: for two candidates with the same `k`, the merge pairs self's
bucket at index `i` with other's bucket at index `k - 1 - i` for all `k`
pairs (with both operands sorted descending this is
largest-with-smallest), and the resulting buckets are re-sorted in
descending order of sum. -/
theorem C2_merge_pairing (p q : Partition) (k : Nat)
    (hp : p.subsets.length = k) (hq : q.subsets.length = k) :
    (p.Merge q).subsets.Perm
      (List.zipWith Subset.Merge p.subsets q.subsets.reverse) ∧
    (∀ (i : Nat) (h1 : i < (List.zipWith Subset.Merge p.subsets q.subsets.reverse).length)
        (h2 : i < p.subsets.length) (h3 : k - 1 - i < q.subsets.length),
      (List.zipWith Subset.Merge p.subsets q.subsets.reverse).get ⟨i, h1⟩ =
        (p.subsets.get ⟨i, h2⟩).Merge (q.subsets.get ⟨k - 1 - i, h3⟩)) ∧
    sortedDesc (p.Merge q).subsets := by
  refine ⟨?_, ?_, Merge_sorted p q⟩
  · rw [Partition.Merge]
    have hdrop : p.subsets.drop (min p.subsets.length q.subsets.length) = [] := by
      have : min p.subsets.length q.subsets.length = p.subsets.length := by omega
      rw [this, List.drop_length]
    refine (List.perm_insertionSort subsetSumGE _).trans ?_
    rw [hdrop, List.append_nil]
  · intro i h1 h2 h3
    simp only [List.get_eq_getElem, List.getElem_zipWith, List.getElem_reverse]
    congr 2
    omega

/-- C2 witness: the pairing evaluated on two fresh two-bucket candidates. -/
theorem C2_merge_pairing_witness :
    ((Partition.create 3 2).Merge (Partition.create 5 2)).subsets.Perm
      (List.zipWith Subset.Merge (Partition.create 3 2).subsets
        (Partition.create 5 2).subsets.reverse) ∧
    (∀ (i : Nat)
        (h1 : i < (List.zipWith Subset.Merge (Partition.create 3 2).subsets
          (Partition.create 5 2).subsets.reverse).length)
        (h2 : i < (Partition.create 3 2).subsets.length)
        (h3 : 2 - 1 - i < (Partition.create 5 2).subsets.length),
      (List.zipWith Subset.Merge (Partition.create 3 2).subsets
        (Partition.create 5 2).subsets.reverse).get ⟨i, h1⟩ =
        ((Partition.create 3 2).subsets.get ⟨i, h2⟩).Merge
          ((Partition.create 5 2).subsets.get ⟨2 - 1 - i, h3⟩)) ∧
    sortedDesc ((Partition.create 3 2).Merge (Partition.create 5 2)).subsets :=
  C2_merge_pairing (Partition.create 3 2) (Partition.create 5 2) 2 (by decide) (by decide)

/-- C3: whenever more than one candidate remains, the step extracts a
candidate `A` of maximal spread, then a candidate `B` of maximal spread
among the rest, merges `B.Merge A` (B absorbs A), and reinserts the merged
candidate, leaving the others untouched. -/
theorem C3_step_extracts_two_largest (l : List Partition) (h : 1 < l.length) :
    ∃ a b rest', l.Perm (a :: b :: rest') ∧
      (∀ x ∈ l, x.difference ≤ a.difference) ∧
      (∀ x ∈ b :: rest', x.difference ≤ b.difference) ∧
      kkStep l = b.Merge a :: rest' := by
  obtain ⟨a, b, rest', h1, h2, h3, h4⟩ := kkStep_spec h
  exact ⟨a, b, rest', h1, h3, h4, h2⟩

/-- C3 witness: the step anatomy on a concrete two-candidate collection. -/
theorem C3_step_extracts_two_largest_witness :
    ∃ a b rest', ([Partition.create 1 2, Partition.create 2 2]).Perm (a :: b :: rest') ∧
      (∀ x ∈ [Partition.create 1 2, Partition.create 2 2],
        x.difference ≤ a.difference) ∧
      (∀ x ∈ b :: rest', x.difference ≤ b.difference) ∧
      kkStep [Partition.create 1 2, Partition.create 2 2] = b.Merge a :: rest' :=
  C3_step_extracts_two_largest [Partition.create 1 2, Partition.create 2 2] (by decide)

/-- C4: the driver loop terminates, each merge step reduces the number of
live candidates by exactly one, and on `N` weights the loop performs
exactly `N - 1` merge steps, after which exactly one candidate remains. -/
theorem C4_termination (numbers : List Nat) (k : Nat) (h1 : numbers ≠ []) :
    (∀ l : List Partition, 1 < l.length → (kkStep l).length = l.length - 1) ∧
    kkLoop (numbers.map (fun n => Partition.create n k)) =
      kkStep^[numbers.length - 1] (numbers.map (fun n => Partition.create n k)) ∧
    (kkLoop (numbers.map (fun n => Partition.create n k))).length = 1 := by
  refine ⟨fun l hl => by have := kkStep_length hl; omega, ?_, ?_⟩
  · rw [kkLoop_iterate, List.length_map]
  · apply kkLoop_length
    rw [List.length_map]
    cases numbers with
    | nil => exact absurd rfl h1
    | cons a tl => simp

/-- C4 witness: the loop on two weights runs exactly one step and ends
with one candidate. -/
theorem C4_termination_witness :
    kkLoop ([1, 2].map (fun n => Partition.create n 1)) =
      kkStep^[1] ([1, 2].map (fun n => Partition.create n 1)) ∧
    (kkLoop ([1, 2].map (fun n => Partition.create n 1))).length = 1 :=
  ⟨(C4_termination [1, 2] 1 (by decide)).2.1, (C4_termination [1, 2] 1 (by decide)).2.2⟩

/-- C5: on valid inputs the result has exactly `k` buckets, and every
candidate keeps exactly `k` buckets for its whole lifetime: creation
yields `k` buckets and a merge preserves the bucket count. -/
theorem C5_bucket_count (numbers : List Nat) (k : Nat)
    (h1 : numbers ≠ []) (h2 : 1 ≤ k) (p : Partition)
    (hp : KarmarkarKarp numbers k = .ok p) :
    p.subsets.length = k ∧
    (∀ number, (Partition.create number k).subsets.length = k) ∧
    (∀ q r : Partition, (q.Merge r).subsets.length = q.subsets.length) :=
  ⟨(KarmarkarKarp_result h1 h2 hp).1.1, fun n => create_length n k h2,
    fun q r => Merge_length q r⟩

/-- C5 witness: the bucket count evaluated on `[5]` with `k = 3`. -/
theorem C5_bucket_count_witness :
    (Partition.subsets ⟨[⟨[5], 5⟩, ⟨[], 0⟩, ⟨[], 0⟩]⟩).length = 3 :=
  (C5_bucket_count [5] 3 (by decide) (by decide) _ rfl).1

/-- C6: sorted-descending-by-sum holds after every mutation: for a fresh
singleton candidate, for the output of every merge, and for the final
result. -/
theorem C6_sorted_desc (numbers : List Nat) (k : Nat)
    (h1 : numbers ≠ []) (h2 : 1 ≤ k) (p : Partition)
    (hp : KarmarkarKarp numbers k = .ok p) :
    sortedDesc p.subsets ∧
    (∀ number, sortedDesc (Partition.create number k).subsets) ∧
    (∀ q r : Partition, sortedDesc (q.Merge r).subsets) :=
  ⟨(KarmarkarKarp_result h1 h2 hp).1.2.1, fun n => create_sorted n k,
    fun q r => Merge_sorted q r⟩

/-- C6 witness: sortedness of the result on `[1,2,4]` with `k = 2`. -/
theorem C6_sorted_desc_witness :
    sortedDesc (Partition.subsets ⟨[⟨[4], 4⟩, ⟨[1, 2], 3⟩]⟩) :=
  (C6_sorted_desc [1, 2, 4] 2 (by decide) (by decide) _ rfl).1

/-- C7: `KarmarkarKarp` fails with `InvalidInput` exactly when the weight
sequence is empty or `k = 0`; on validated inputs it always returns a
candidate, so no recoverable error state arises. -/
theorem C7_invalid_input (numbers : List Nat) (k : Nat) :
    (KarmarkarKarp numbers k = .error .InvalidInput ↔ numbers = [] ∨ k = 0) ∧
    ((∃ p, KarmarkarKarp numbers k = .ok p) ↔ ¬(numbers = [] ∨ k = 0)) := by
  have hcase : ∀ (hne : ¬(numbers.isEmpty = true)) (hk : ¬(k = 0)),
      KarmarkarKarp numbers k =
        .ok ((kkLoop (numbers.map (fun n => Partition.create n k))).headD ⟨[]⟩) := by
    intro hne hk
    rw [KarmarkarKarp, if_neg hne, if_neg hk]
  constructor
  · constructor
    · intro h
      by_contra hc
      push_neg at hc
      rw [hcase (by simp [List.isEmpty_iff]; exact hc.1) hc.2] at h
      cases h
    · intro h
      rcases h with h | h
      · rw [KarmarkarKarp, if_pos (by simp [List.isEmpty_iff, h])]
      · rw [KarmarkarKarp]
        by_cases hne : numbers.isEmpty = true
        · rw [if_pos hne]
        · rw [if_neg hne, if_pos h]
  · constructor
    · rintro ⟨p, hp⟩ hc
      rcases hc with h | h
      · rw [KarmarkarKarp, if_pos (by simp [List.isEmpty_iff, h])] at hp
        cases hp
      · rw [KarmarkarKarp] at hp
        by_cases hne : numbers.isEmpty = true
        · rw [if_pos hne] at hp; cases hp
        · rw [if_neg hne, if_pos h] at hp; cases hp
    · intro hc
      push_neg at hc
      exact ⟨_, hcase (by simp [List.isEmpty_iff]; exact hc.1) hc.2⟩

/-- C7 witness: the error behaviour at an empty input and at `k = 0`. -/
theorem C7_invalid_input_witness :
    KarmarkarKarp [] 5 = .error .InvalidInput ∧
    KarmarkarKarp [3] 0 = .error .InvalidInput :=
  ⟨(C7_invalid_input [] 5).1.mpr (Or.inl rfl),
    (C7_invalid_input [3] 0).1.mpr (Or.inr rfl)⟩

/-- C8 counterexample: the input `[8,7,6,5,4]` with `k = 2` can be
perfectly balanced (`[8,7]` and `[6,5,4]` both sum to 15), yet the
heuristic returns buckets summing to 16 and 14, so its spread is 2, not
0: the claim's "spread is 0 whenever the weights can be perfectly
balanced" fails. -/
theorem C8_counterexample :
    (List.sum [8, 7] = List.sum [6, 5, 4] ∧
      ((↑[8, 7] + ↑[6, 5, 4] : Multiset Nat) = ↑[8, 7, 6, 5, 4])) ∧
    KarmarkarKarp [8, 7, 6, 5, 4] 2 = .ok ⟨[⟨[7, 5, 4], 16⟩, ⟨[8, 6], 14⟩]⟩ ∧
    Partition.difference ⟨[⟨[7, 5, 4], 16⟩, ⟨[8, 6], 14⟩]⟩ = 2 :=
  ⟨⟨by decide, by decide⟩, rfl, by decide⟩

/-- C8 amended: the spread is always non-negative; it is `0` whenever
`k = 1`, and it is `0` for an input of `k` equal weights split into `k`
buckets (but not for every perfectly balanceable input). -/
theorem C8_spread_amended (numbers : List Nat) (k : Nat)
    (h1 : numbers ≠ []) (h2 : 1 ≤ k) (p : Partition)
    (hp : KarmarkarKarp numbers k = .ok p) :
    (∀ q : Partition, 0 ≤ q.difference) ∧
    (k = 1 → p.difference = 0) ∧
    (∀ w, numbers = List.replicate k w → p.difference = 0) := by
  refine ⟨fun q => Nat.zero_le _, ?_, ?_⟩
  · intro hk1
    have := (KarmarkarKarp_result h1 h2 hp).1.1
    rw [hk1] at this
    exact difference_zero_of_one this
  · intro w hw
    subst hw
    exact KK_replicate_diff_zero h2 hp

/-- C8 witness: two equal weights into two buckets give zero spread. -/
theorem C8_spread_amended_witness :
    Partition.difference ⟨[⟨[2], 2⟩, ⟨[2], 2⟩]⟩ = 0 :=
  (C8_spread_amended [2, 2] 2 (by decide) (by decide) _ rfl).2.2 2 rfl

/-- C9: the shape assertion of `Partition::Merge` is unreachable on valid
driver runs: after any number of loop steps from the initial heap, the
two candidates the step would extract and merge have the same bucket
count, so the `assert(subsets_.size() == other.subsets_.size())` always
holds. -/
theorem C9_shape_assert_holds (numbers : List Nat) (k : Nat) (h2 : 1 ≤ k) :
    ∀ (m : Nat) (a b : Partition) (rest rest' : List Partition),
      extractMax (kkStep^[m] (numbers.map (fun n => Partition.create n k))) = some (a, rest) →
      extractMax rest = some (b, rest') →
      b.subsets.length = a.subsets.length := by
  intro m a b rest rest' hA hB
  have hinv : ∀ p ∈ kkStep^[m] (numbers.map (fun n => Partition.create n k)),
      candOk k p := by
    apply iterate_candOk
    intro p hp
    obtain ⟨n, _, hn⟩ := List.mem_map.mp hp
    rw [← hn]
    exact create_candOk n k h2
  have ha : candOk k a := hinv a (extractMax_mem hA)
  have hb : candOk k b := hinv b (extractMax_rest_subset hA b (extractMax_mem hB))
  rw [ha.1, hb.1]

/-- C9 witness: the shapes of the two candidates extracted on the initial
heap for `[1,2]` with `k = 1` agree. -/
theorem C9_shape_assert_holds_witness :
    (Partition.create 2 1).subsets.length = (Partition.create 1 1).subsets.length :=
  C9_shape_assert_holds [1, 2] 1 (by decide) 0 (Partition.create 1 1)
    (Partition.create 2 1) [Partition.create 2 1] [] rfl rfl

/-- C10 counterexample: on the input `[0,0,0]` with `k = 3` (three
weights, three buckets) the result puts two weights into one bucket, so
the claim that every bucket of an `N ≤ k` run holds at most one weight
fails for zero weights: a zero-weight singleton bucket sorts among the
empty buckets and can be paired with a non-empty one. -/
theorem C10_counterexample :
    List.length [0, 0, 0] ≤ 3 ∧
    KarmarkarKarp [0, 0, 0] 3 = .ok ⟨[⟨[0, 0], 0⟩, ⟨[], 0⟩, ⟨[0], 0⟩]⟩ ∧
    ¬ (∀ s ∈ Partition.subsets ⟨[⟨[0, 0], 0⟩, ⟨[], 0⟩, ⟨[0], 0⟩]⟩,
        s.numbers.length ≤ 1) :=
  ⟨by decide, rfl, by decide⟩

/-- C10 amended: for an input of `N` positive weights with `N ≤ k`, the
result places each input weight alone in its own bucket: every bucket
holds at most one weight, and the buckets together hold exactly the
input weights. -/
theorem C10_singletons_amended (numbers : List Nat) (k : Nat)
    (h1 : numbers ≠ []) (hpos : ∀ w ∈ numbers, 0 < w)
    (hN : numbers.length ≤ k) (p : Partition)
    (hp : KarmarkarKarp numbers k = .ok p) :
    (∀ s ∈ p.subsets, s.numbers.length ≤ 1) ∧ p.contents = ↑numbers := by
  obtain ⟨hform, _, hcont⟩ := KarmarkarKarp_result_form h1 hpos hN hp
  refine ⟨?_, hcont⟩
  intro s hs
  rcases hform s hs with h | ⟨w, _, h⟩ <;> rw [h] <;> simp [Subset.empty, Subset.single]

/-- C10 witness: two positive weights into three buckets, one per
bucket. -/
theorem C10_singletons_amended_witness :
    (∀ s ∈ Partition.subsets ⟨[⟨[2], 2⟩, ⟨[1], 1⟩, ⟨[], 0⟩]⟩,
      s.numbers.length ≤ 1) ∧
    Partition.contents ⟨[⟨[2], 2⟩, ⟨[1], 1⟩, ⟨[], 0⟩]⟩ = (↑[1, 2] : Multiset Nat) :=
  C10_singletons_amended [1, 2] 3 (by decide) (by decide) (by decide) _ rfl
